import Mathlib

/-!
Verification development for the `condex` pattern-matching engine
(`src/lib.rs` of just-do-halee/condex).

The Rust automaton `Condex` holds a `Peekable<Cycle<Chars>>` over the
pattern string.  We embed that cursor as the immutable list of pattern
characters plus a natural-number position `pos`; peeking reads
`pattern[pos % pattern.length]` and consuming increments `pos`.  This is
exact: the Rust iterator is only ever driven through `peek`/`next`.

The source's target-resolution routine `Condex::next` contains three
loops that can run forever on the cyclic stream (the space-skipping
loop, the `-` recursion, and the `[...]`-collection loop).  Each is
embedded as a bounded least-index search over one full cycle
(`pattern.length` consecutive positions): every pattern character occurs
in any window of `pattern.length` consecutive cyclic positions, so if a
full cycle contains no character the loop is searching for, the Rust
loop never terminates; that divergence (and the `peek().unwrap()` panic
on an empty pattern) is modeled by returning `none`.
-/

/-- State of the recognizer (`CondexState` in the source). -/
inductive CondexState where
  | Await
  | Record
deriving DecidableEq, Repr

/-- `Span = Range<usize>` in the source: a half-open offset range,
represented as (start, end). -/
abbrev Span := Nat × Nat

/-- Least `j` with `start ≤ j < start + b` satisfying `P`, scanning upward. -/
def leastAux (P : Nat → Bool) : Nat → Nat → Option Nat
  | 0, _ => none
  | b + 1, start => if P start then some start else leastAux P b (start + 1)

/-- Least `j < bound` satisfying `P`, if any. -/
def least (P : Nat → Bool) (bound : Nat) : Option Nat := leastAux P bound 0

/-- Cyclic read of the pattern: the character the cursor would peek at
absolute position `a`.  `none` exactly when the pattern is empty (where
the source's `peek().unwrap()` panics). -/
def cyc (p : List Char) (a : Nat) : Option Char := p.get? (a % p.length)

/-- A pattern character the resolution loop of `Condex::next` consumes and
moves past: a space (the skip loop) or a `-` (the recursive capture-marker
case). -/
def isSkippable (c : Char) : Bool := c = ' ' || c = '-'

/-- The search predicate for target resolution: position `base + d` holds a
character that stops the skip/marker consumption. -/
def stopperAt (p : List Char) (base : Nat) (d : Nat) : Bool :=
  match cyc p (base + d) with
  | some c => !isSkippable c
  | none => false

/-- The automaton state of `struct Condex` in the source.  The field
`condex: Peekable<Cycle<Chars>>` is represented by `pattern` + `pos`. -/
structure Condex where
  pattern : List Char
  pos : Nat
  current_state : CondexState
  prev_i : Nat
  condex_len : Nat
  result_len : Nat
  result : List Span
  results : List (List Span)
  or_conditions : List Char
deriving DecidableEq, Repr

/-- The counting loop of `Condex::_new`: one pass accumulating
(`result_len`, `condex_len`) = (number of `-` characters, number of
characters). -/
def countLoop : List Char → Nat × Nat → Nat × Nat
  | [], acc => acc
  | c :: rest, (rl, cl) => countLoop rest (if c = '-' then rl + 1 else rl, cl + 1)

/-- `Condex::_new` on an explicit character list. -/
def Condex.ofList (l : List Char) : Condex :=
  { pattern := l
    pos := 0
    current_state := .Await
    prev_i := 0
    condex_len := (countLoop l (0, 0)).2
    result_len := (countLoop l (0, 0)).1
    result := []
    results := []
    or_conditions := [] }

/-- `Condex::_new`: build the automaton from a pattern string.  Performs no
validation of any kind. -/
def Condex._new (condex : String) : Condex := Condex.ofList condex.toList

/-- Did the skip phase of `Condex::next` consume a `-` marker?  True when a
`-` sits among the `d` cyclic positions starting at `base` — each such
consumption runs `set_state(Record)` in the source. -/
def anyDashIn (p : List Char) (base d : Nat) : Bool :=
  (List.range d).any (fun j => decide (cyc p (base + j) = some '-'))

/-- The recognizer state after the skip phase: `Record` once a `-` was
consumed, otherwise unchanged. -/
def stepState (st : CondexState) (dash : Bool) : CondexState :=
  if dash then .Record else st

/-- The characters the `[...]`-collection loop pushes: the `k` cyclic
characters following the `[`, up to (excluding) the closing `]`. -/
def classMembers (p : List Char) (base k : Nat) : List Char :=
  (List.range k).map (fun j => (cyc p (base + j)).getD ' ')

/-- `Condex::next` (target resolution).  Skips spaces, consumes `-` markers
(entering `Record`), then either returns the literal target (peeked, not
consumed) or collects a `[...]` class into `or_conditions` and reports the
target `']'`.  Returns `none` where the source diverges (no stopper in a
full cycle; a `[` with no `]` anywhere) or panics (empty pattern). -/
def Condex.resolve (s : Condex) : Option (Char × Condex) :=
  match least (stopperAt s.pattern s.pos) s.pattern.length with
  | none => none
  | some d =>
    match cyc s.pattern (s.pos + d) with
    | none => none
    | some ch =>
      let st := stepState s.current_state (anyDashIn s.pattern s.pos d)
      if ch = '[' then
        let base := s.pos + d + 1
        match least (fun k => decide (cyc s.pattern (base + k) = some ']'))
            s.pattern.length with
        | none => none
        | some k =>
          let members := classMembers s.pattern base k
          if members.isEmpty then
            -- empty class: the source consumes the `]` and returns it
            some (']', { s with pos := base + k + 1, current_state := st,
                                or_conditions := members })
          else
            -- non-empty class: cursor left peeking at the `]`
            some (']', { s with pos := base + k, current_state := st,
                                or_conditions := members })
      else
        some (ch, { s with pos := s.pos + d, current_state := st })

/-- The comparison in `Condex::test`: literal equality when no class is
active, membership otherwise. -/
def condMatch (s : Condex) (c t : Char) : Bool :=
  if s.or_conditions.isEmpty then c = t else s.or_conditions.contains c

/-- The success path of `Condex::test`: advance `prev_i`, clear the class,
reset to `Await`, and consume the matched target from the cursor. -/
def succeed (s : Condex) (i : Nat) : Condex :=
  { s with prev_i := i + 1
           or_conditions := []
           current_state := .Await
           pos := s.pos + 1 }

/-- `Condex::test(c, i)`.  A space input returns immediately.  Otherwise the
target is resolved; on a failed comparison the state is returned exactly as
resolution left it (the source's `skip` adapter is constructed and dropped,
never driven — a no-op). -/
def Condex.test (s : Condex) (c : Char) (i : Nat) : Option Condex :=
  if c = ' ' then some s
  else
    match s.resolve with
    | none => none
    | some (t, s₁) =>
      match s₁.current_state with
      | .Await => if condMatch s₁ c t then some (succeed s₁ i) else some s₁
      | .Record =>
        if condMatch s₁ c t then
          let result' := s₁.result ++ [(s₁.prev_i, i)]
          if s₁.result_len ≤ result'.length then
            some (succeed { s₁ with result := [],
                                    results := s₁.results ++ [result'] } i)
          else
            some (succeed { s₁ with result := result' } i)
        else some s₁

/-- Feed a list of (character, offset) pairs through `Condex::test`. -/
def Condex.run (s : Condex) : List (Char × Nat) → Option Condex
  | [] => some s
  | (c, i) :: rest =>
    match s.test c i with
    | none => none
    | some s' => s'.run rest

/-- The `(character, byte-offset)` stream `source.char_indices()` produces;
for the ASCII sources used here byte offsets coincide with character
indices. -/
def inputOf (s : String) : List (Char × Nat) :=
  s.toList.enum.map (fun p => (p.2, p.1))

/-- `source.get(span)` of the source: the slice at a half-open range, `none`
when the range is invalid (there `unwrap` panics). -/
def sliceGet (src : List Char) (sp : Span) : Option (List Char) :=
  if sp.1 ≤ sp.2 ∧ sp.2 ≤ src.length then
    some ((src.drop sp.1).take (sp.2 - sp.1))
  else none

/-- `str::trim`: drop leading and trailing whitespace. -/
def trimList (l : List Char) : List Char :=
  ((l.dropWhile Char.isWhitespace).reverse.dropWhile Char.isWhitespace).reverse

/-- Resolve one span against the source text: slice then trim; `none` models
the `unwrap` panic on an invalid range. -/
def resolveSpan (src : List Char) (sp : Span) : Option (List Char) :=
  (sliceGet src sp).map trimList

/-- Map with a fallible function, failing on the first failure — the shape
of the source's `map(|span| source.get(span).unwrap() ...)`. -/
def mapMO (f : α → Option β) : List α → Option (List β)
  | [] => some []
  | a :: l =>
    match f a, mapMO f l with
    | some b, some bs => some (b :: bs)
    | _, _ => none

/-- `CondexBuilder::finalize_with_source` restricted to one automaton:
every recorded span of every completed group resolved against `src`. -/
def finalizeWithSource (src : List Char) (con : Condex) :
    Option (List (List (List Char))) :=
  mapMO (fun g => mapMO (resolveSpan src) g) con.results
section LeastLemmas

theorem leastAux_eq_some {P : Nat → Bool} {b start d : Nat}
    (h : leastAux P b start = some d) :
    start ≤ d ∧ d < start + b ∧ P d = true ∧
      ∀ j, start ≤ j → j < d → P j = false := by
  induction b generalizing start with
  | zero => simp [leastAux] at h
  | succ b ih =>
    rw [leastAux] at h
    by_cases hp : P start = true
    · rw [if_pos hp] at h
      cases h
      exact ⟨le_refl _, by omega, hp, fun j h1 h2 => absurd h1 (by omega)⟩
    · rw [if_neg hp] at h
      obtain ⟨h1, h2, h3, h4⟩ := ih h
      refine ⟨by omega, by omega, h3, fun j hj1 hj2 => ?_⟩
      rcases Nat.eq_or_lt_of_le hj1 with rfl | hlt
      · exact Bool.eq_false_iff.mpr hp
      · exact h4 j (by omega) hj2

theorem leastAux_eq_none {P : Nat → Bool} {b start : Nat}
    (h : leastAux P b start = none) :
    ∀ j, start ≤ j → j < start + b → P j = false := by
  induction b generalizing start with
  | zero => intro j h1 h2; omega
  | succ b ih =>
    rw [leastAux] at h
    by_cases hp : P start = true
    · rw [if_pos hp] at h; cases h
    · rw [if_neg hp] at h
      intro j h1 h2
      rcases Nat.eq_or_lt_of_le h1 with rfl | hlt
      · exact Bool.eq_false_iff.mpr hp
      · exact ih h j (by omega) (by omega)

theorem least_eq_some {P : Nat → Bool} {bound d : Nat}
    (h : least P bound = some d) :
    d < bound ∧ P d = true ∧ ∀ j, j < d → P j = false := by
  obtain ⟨_, h2, h3, h4⟩ := leastAux_eq_some h
  exact ⟨by omega, h3, fun j hj => h4 j (Nat.zero_le j) hj⟩

theorem least_eq_none {P : Nat → Bool} {bound : Nat}
    (h : least P bound = none) : ∀ j, j < bound → P j = false :=
  fun j hj => leastAux_eq_none h j (Nat.zero_le j) (by omega)

theorem least_isSome {P : Nat → Bool} {bound j : Nat}
    (hj : j < bound) (hp : P j = true) : least P bound ≠ none := by
  intro hn
  rw [least_eq_none hn j hj] at hp
  cases hp

theorem least_of_spec {P : Nat → Bool} {bound d : Nat}
    (hd : d < bound) (hp : P d = true) (hmin : ∀ j, j < d → P j = false) :
    least P bound = some d := by
  cases hle : least P bound with
  | none => exact absurd hle (least_isSome hd hp)
  | some d' =>
    obtain ⟨h1, h2, h3⟩ := least_eq_some hle
    rcases Nat.lt_trichotomy d d' with hlt | rfl | hlt
    · rw [h3 d hlt] at hp; cases hp
    · rfl
    · rw [hmin d' hlt] at h2; cases h2

end LeastLemmas

section CountLemmas

theorem countLoop_spec : ∀ (l : List Char) (rl cl : Nat),
    countLoop l (rl, cl) = (rl + l.count '-', cl + l.length) := by
  intro l
  induction l with
  | nil => intro rl cl; simp [countLoop]
  | cons c rest ih =>
    intro rl cl
    rw [countLoop, ih, Prod.mk.injEq]
    constructor
    · by_cases hc : c = '-'
      · subst hc
        rw [if_pos rfl, List.count_cons]
        simp
        omega
      · rw [if_neg hc, List.count_cons]
        have hb : (c == '-') = false := by simp [beq_iff_eq, hc]
        rw [hb]
        simp
    · simp
      omega

theorem ofList_result_len (l : List Char) :
    (Condex.ofList l).result_len = l.count '-' := by
  show (countLoop l (0, 0)).1 = l.count '-'
  rw [countLoop_spec]
  simp

theorem ofList_condex_len (l : List Char) :
    (Condex.ofList l).condex_len = l.length := by
  show (countLoop l (0, 0)).2 = l.length
  rw [countLoop_spec]
  simp

end CountLemmas

section FrameLemmas

theorem cyc_mem {p : List Char} {a : Nat} {c : Char}
    (h : cyc p a = some c) : c ∈ p := by
  unfold cyc at h
  exact List.get?_mem h

theorem stepState_record {st : CondexState} {b : Bool}
    (h : stepState st b = .Record) : st = .Record ∨ b = true := by
  unfold stepState at h
  by_cases hb : b = true
  · exact Or.inr hb
  · rw [if_neg hb] at h
    exact Or.inl h

theorem anyDashIn_mem {p : List Char} {base d : Nat}
    (h : anyDashIn p base d = true) : '-' ∈ p := by
  unfold anyDashIn at h
  rw [List.any_eq_true] at h
  obtain ⟨j, _, hj⟩ := h
  rw [decide_eq_true_eq] at hj
  exact cyc_mem hj

theorem resolve_frame {s : Condex} {ch : Char} {s₁ : Condex}
    (h : s.resolve = some (ch, s₁)) :
    s₁.pattern = s.pattern ∧ s₁.prev_i = s.prev_i ∧ s₁.result = s.result ∧
    s₁.results = s.results ∧ s₁.result_len = s.result_len ∧
    s₁.condex_len = s.condex_len := by
  simp only [Condex.resolve] at h
  repeat' split at h
  all_goals try cases h
  all_goals exact ⟨rfl, rfl, rfl, rfl, rfl, rfl⟩

theorem resolve_record {s : Condex} {ch : Char} {s₁ : Condex}
    (h : s.resolve = some (ch, s₁))
    (hrec : s₁.current_state = .Record) :
    s.current_state = .Record ∨ '-' ∈ s.pattern := by
  simp only [Condex.resolve] at h
  repeat' split at h
  all_goals try cases h
  all_goals
    (dsimp only at hrec
     rcases stepState_record hrec with h' | h'
     · exact Or.inl h'
     · exact Or.inr (anyDashIn_mem h'))

end FrameLemmas
section InvariantLemmas

/-- Invariant of every reachable automaton state: `result_len` is the
pattern's `-` count; with no markers the recognizer can never record and
nothing is ever pushed; otherwise the in-progress list stays strictly
shorter than the marker count; and every completed group has exactly
`result_len` spans. -/
def CondexInv (s : Condex) : Prop :=
  s.result_len = s.pattern.count '-' ∧
  (s.result_len = 0 → s.current_state = .Await ∧ s.result = [] ∧ s.results = []) ∧
  (0 < s.result_len → s.result.length < s.result_len) ∧
  ∀ g ∈ s.results, g.length = s.result_len

theorem new_def (pat : String) : Condex._new pat = Condex.ofList pat.toList := rfl

theorem ofList_inv (l : List Char) : CondexInv (Condex.ofList l) := by
  refine ⟨ofList_result_len l, fun _ => ⟨rfl, rfl, rfl⟩, fun h => ?_, by simp [Condex.ofList]⟩
  simpa [Condex.ofList] using h

theorem test_frame {s : Condex} {c : Char} {i : Nat} {s' : Condex}
    (h : s.test c i = some s') :
    s'.pattern = s.pattern ∧ s'.result_len = s.result_len ∧
    s'.condex_len = s.condex_len := by
  simp only [Condex.test] at h
  split at h
  · cases h; exact ⟨rfl, rfl, rfl⟩
  split at h
  · cases h
  rename_i t s₁ heq
  obtain ⟨hpat, -, -, -, hrl, hcl⟩ := resolve_frame heq
  repeat' split at h
  all_goals cases h
  all_goals simp [succeed, hpat, hrl, hcl]

theorem test_inv {s : Condex} {c : Char} {i : Nat} {s' : Condex}
    (hInv : CondexInv s) (h : s.test c i = some s') : CondexInv s' := by
  obtain ⟨i1, i2, i3, i4⟩ := hInv
  simp only [Condex.test] at h
  split at h
  · cases h; exact ⟨i1, i2, i3, i4⟩
  split at h
  · cases h
  rename_i t s₁ heq
  obtain ⟨hpat, hprev, hres, hress, hrl, hcl⟩ := resolve_frame heq
  have hstate : s₁.result_len = 0 → s₁.current_state = .Await := by
    intro h0
    cases hcs : s₁.current_state with
    | Await => rfl
    | Record =>
      rcases resolve_record heq hcs with hr | hr
      · rw [(i2 (by omega)).1] at hr; cases hr
      · rw [hrl, i1, List.count_eq_zero] at h0
        exact absurd hr h0
  have hInvKeep : CondexInv s₁ := by
    refine ⟨by rw [hrl, hpat, i1], fun h0 => ⟨hstate h0, ?_, ?_⟩, fun hp => ?_, fun g hg => ?_⟩
    · rw [hres]; exact (i2 (by omega)).2.1
    · rw [hress]; exact (i2 (by omega)).2.2
    · rw [hres, hrl]; exact i3 (by omega)
    · rw [hress] at hg; rw [hrl]; exact i4 g hg
  cases hcs : s₁.current_state with
  | Await =>
    rw [hcs] at h
    simp only [] at h
    split at h <;> cases h
    · -- matched: s' = succeed s₁ i
      obtain ⟨j1, j2, j3, j4⟩ := hInvKeep
      exact ⟨j1, fun h0 => ⟨rfl, (j2 h0).2.1, (j2 h0).2.2⟩, j3, j4⟩
    · exact hInvKeep
  | Record =>
    have hpos : 0 < s₁.result_len := by
      rcases Nat.eq_zero_or_pos s₁.result_len with h0 | h0
      · rw [hstate h0] at hcs; cases hcs
      · exact h0
    rw [hcs] at h
    simp only [] at h
    split at h
    · -- matched
      split at h <;> cases h
      · -- group completed
        rename_i hcomp
        have hlt : s₁.result.length < s₁.result_len := by
          rw [hres, hrl]; exact i3 (by omega)
        have hlen : (s₁.result ++ [(s₁.prev_i, i)]).length = s₁.result_len := by
          simp at hcomp ⊢
          omega
        unfold CondexInv
        simp only [succeed]
        refine ⟨by rw [hrl, hpat, i1], fun h0 => absurd h0 (by omega),
          fun hp => by simpa using hpos, fun g hg => ?_⟩
        simp only [List.mem_append, List.mem_singleton] at hg
        rcases hg with hg | hg
        · rw [hress] at hg
          rw [hrl]
          exact i4 g hg
        · rw [hg]
          exact hlen
      · -- group not yet complete
        rename_i hincomp
        unfold CondexInv
        simp only [succeed]
        refine ⟨by rw [hrl, hpat, i1], fun h0 => absurd h0 (by omega),
          fun hp => by simp at hincomp ⊢; omega, fun g hg => ?_⟩
        rw [hress] at hg
        rw [hrl]
        exact i4 g hg
    · cases h
      exact hInvKeep

theorem run_frame {s : Condex} {inputs : List (Char × Nat)} {s' : Condex}
    (h : s.run inputs = some s') :
    s'.pattern = s.pattern ∧ s'.result_len = s.result_len := by
  induction inputs generalizing s with
  | nil =>
    rw [Condex.run] at h
    cases h
    exact ⟨rfl, rfl⟩
  | cons ci rest ih =>
    obtain ⟨c, i⟩ := ci
    rw [Condex.run] at h
    split at h
    · cases h
    rename_i s₁ heq
    obtain ⟨p1, p2⟩ := ih h
    obtain ⟨q1, q2, -⟩ := test_frame heq
    exact ⟨p1.trans q1, p2.trans q2⟩

theorem run_inv {s : Condex} {inputs : List (Char × Nat)} {s' : Condex}
    (hInv : CondexInv s) (h : s.run inputs = some s') : CondexInv s' := by
  induction inputs generalizing s with
  | nil =>
    rw [Condex.run] at h
    cases h
    exact hInv
  | cons ci rest ih =>
    obtain ⟨c, i⟩ := ci
    rw [Condex.run] at h
    split at h
    · cases h
    rename_i s₁ heq
    exact ih (test_inv hInv heq) h

end InvariantLemmas
section ClaimTheorems

/-- **C1** (code evaluated at the failing input): for pattern `"-a"` in its
initial state, input `'x'` at offset 0 fails the comparison against the
literal target `'a'`, yet `Condex::test` leaves the automaton exactly as
target resolution left it — recognizer flipped to `Record`, cursor advanced
to position 1 — not in the claimed initial condition (`Await`, cursor on
the pattern's first element): the failure branch's `skip` adapter is never
driven, so no reset happens. -/
theorem c1_failed_comparison_does_not_reset :
    Condex.resolve (Condex._new "-a") =
      some ('a', { Condex._new "-a" with pos := 1, current_state := .Record })
    ∧ condMatch { Condex._new "-a" with pos := 1, current_state := .Record }
        'x' 'a' = false
    ∧ Condex.test (Condex._new "-a") 'x' 0 =
        some { Condex._new "-a" with pos := 1, current_state := .Record }
    ∧ ({ Condex._new "-a" with pos := 1, current_state := .Record } : Condex).current_state ≠ CondexState.Await
    ∧ ({ Condex._new "-a" with pos := 1, current_state := .Record } : Condex).pos ≠ 0 :=
  ⟨rfl, rfl, rfl, by decide, by decide⟩

/-- **C2** counterexample: construction from the malformed patterns `"["`
(unterminated group) and `"[]"` (empty class) does not fail: `Condex::_new`
performs no validation and returns the ordinary initial automaton — no
`MalformedPattern` error exists anywhere in the code. -/
theorem c2_construction_never_fails :
    Condex._new "[" =
      { pattern := ['['], pos := 0, current_state := .Await, prev_i := 0,
        condex_len := 1, result_len := 0, result := [], results := [],
        or_conditions := [] }
    ∧ Condex._new "[]" =
      { pattern := ['[', ']'], pos := 0, current_state := .Await, prev_i := 0,
        condex_len := 2, result_len := 0, result := [], results := [],
        or_conditions := [] } :=
  ⟨rfl, rfl⟩

/-- **C2** amended: construction never fails — for every pattern `_new`
returns the standard initial automaton.  Malformed patterns go undetected:
a `[` with no `]` anywhere in the pattern makes target resolution diverge
on first use (the collection loop never finds a `]`; modeled as `none`),
and the empty class `[]` is silently treated as a literal `']'` target with
the cursor moved past it. -/
theorem c2_amended_no_validation :
    (∀ pat : String, Condex._new pat =
      { pattern := pat.toList, pos := 0, current_state := .Await, prev_i := 0,
        condex_len := pat.toList.length, result_len := pat.toList.count '-',
        result := [], results := [], or_conditions := [] })
    ∧ Condex.resolve (Condex._new "[") = none
    ∧ Condex.resolve (Condex._new "[]") =
        some (']', { Condex._new "[]" with pos := 2 }) := by
  refine ⟨fun pat => ?_, rfl, rfl⟩
  rw [new_def]
  unfold Condex.ofList
  congr 1
  · rw [countLoop_spec]; simp
  · rw [countLoop_spec]; simp

/-- **C3**: every capture-span-group ever appended to the completed-groups
list of an automaton built by `_new` and driven by `test` has length
exactly the pattern's count of `-` characters; and whenever a `test` step
appends a group, the same step clears the in-progress list. -/
theorem c3_completed_group_lengths :
    (∀ (pat : String) (inputs : List (Char × Nat)) (s' : Condex),
        Condex.run (Condex._new pat) inputs = some s' →
        ∀ g ∈ s'.results, g.length = pat.toList.count '-')
    ∧ (∀ (s : Condex) (c : Char) (i : Nat) (s' : Condex),
        s.test c i = some s' → s.results ≠ s'.results → s'.result = []) := by
  constructor
  · intro pat inputs s' h g hg
    rw [new_def] at h
    have hInv := run_inv (ofList_inv pat.toList) h
    have hframe := run_frame h
    rw [hInv.2.2.2 g hg, hframe.2, ofList_result_len]
  · intro s c i s' h hne
    simp only [Condex.test] at h
    split at h
    · cases h; exact absurd rfl hne
    split at h
    · cases h
    rename_i t s₁ heq
    obtain ⟨-, -, -, hress, -, -⟩ := resolve_frame heq
    repeat' split at h
    all_goals cases h
    · exact absurd (by simp [succeed, hress]) hne
    · exact absurd hress.symm hne
    · simp [succeed]
    · exact absurd (by simp [succeed, hress]) hne
    · exact absurd hress.symm hne

/-- Witness for **C3** at pattern `"a-b"` and input `"ab"`: the single
completed group `[(1, 1)]` has the pattern's marker count 1, and the step
that appended it cleared the in-progress list. -/
theorem c3_witness :
    ([((1 : Nat), (1 : Nat))] : List Span).length = "a-b".toList.count '-'
    ∧ ({ pattern := "a-b".toList, pos := 3, current_state := .Await,
         prev_i := 2, condex_len := 3, result_len := 1, result := [],
         results := [[(1, 1)]], or_conditions := [] } : Condex).result = [] :=
  ⟨c3_completed_group_lengths.1 "a-b" [('a', 0), ('b', 1)]
      { pattern := "a-b".toList, pos := 3, current_state := .Await,
        prev_i := 2, condex_len := 3, result_len := 1, result := [],
        results := [[(1, 1)]], or_conditions := [] } rfl [(1, 1)] (by simp),
   c3_completed_group_lengths.2
      { pattern := "a-b".toList, pos := 1, current_state := .Await,
        prev_i := 1, condex_len := 3, result_len := 1, result := [],
        results := [], or_conditions := [] } 'b' 1
      { pattern := "a-b".toList, pos := 3, current_state := .Await,
        prev_i := 2, condex_len := 3, result_len := 1, result := [],
        results := [[(1, 1)]], or_conditions := [] } rfl (by decide)⟩

/-- **C4** counterexample: `'\t'` is whitespace, yet feeding it changes the
automaton: on pattern `"-a"` resolution consumes the `-` and the recognizer
flips to `Record` before `'\t'` fails the literal comparison — only the
space character `' '` is skipped by `Condex::test`. -/
theorem c4_tab_changes_state :
    Char.isWhitespace '\t' = true
    ∧ Condex.test (Condex._new "-a") '\t' 0 =
        some { Condex._new "-a" with pos := 1, current_state := .Record }
    ∧ (Condex._new "-a").current_state = CondexState.Await
    ∧ ({ Condex._new "-a" with pos := 1, current_state := .Record } : Condex).current_state ≠
        (Condex._new "-a").current_state :=
  ⟨by decide, rfl, rfl, by decide⟩

/-- **C4** amended: only the literal space character is ignored —
`Condex::test` with `' '` returns the automaton unchanged (no comparison is
made, nothing advances); every other character, other whitespace included,
is processed as ordinary input. -/
theorem c4_amended_space_is_ignored (s : Condex) (i : Nat) :
    s.test ' ' i = some s := by
  simp [Condex.test]

/-- **C5**: the pattern `"[(,] - : - [,=]"` run over `"(name: type = value)"`
(each character with its index) and resolved against that source yields
exactly one capture-span-group whose trimmed substrings are `"name"` and
`"type"`, in that order. -/
theorem c5_name_type_scenario :
    (Condex.run (Condex._new "[(,] - : - [,=]")
        (inputOf "(name: type = value)")).bind
      (fun con => finalizeWithSource "(name: type = value)".toList con)
    = some [["name".toList, "type".toList]] := rfl

/-- **C8**: a pattern with zero `-` markers never records anything — after
any input sequence the completed-groups list is empty. -/
theorem c8_zero_markers_no_results (pat : String) (inputs : List (Char × Nat))
    (s' : Condex) (hzero : pat.toList.count '-' = 0)
    (h : Condex.run (Condex._new pat) inputs = some s') :
    s'.results = [] := by
  rw [new_def] at h
  have hInv := run_inv (ofList_inv pat.toList) h
  have hframe := run_frame h
  exact (hInv.2.1 (by rw [hframe.2, ofList_result_len]; exact hzero)).2.2

/-- Witness for **C8** at pattern `"ab"` and input `"a"`. -/
theorem c8_witness :
    ({ pattern := "ab".toList, pos := 1, current_state := .Await, prev_i := 1,
       condex_len := 2, result_len := 0, result := [], results := [],
       or_conditions := [] } : Condex).results = [] :=
  c8_zero_markers_no_results "ab" [('a', 0)]
    { pattern := "ab".toList, pos := 1, current_state := .Await, prev_i := 1,
      condex_len := 2, result_len := 0, result := [], results := [],
      or_conditions := [] } (by decide) rfl

/-- **C9**: for a pattern with at least one `-` marker, after every `test`
step the in-progress capture list is strictly shorter than the marker
count: the completing push, the append to the completed list and the clear
all happen inside one call. -/
theorem c9_inprogress_lt_marker_count (pat : String)
    (inputs : List (Char × Nat)) (s' : Condex)
    (hpos : 1 ≤ pat.toList.count '-')
    (h : Condex.run (Condex._new pat) inputs = some s') :
    s'.result.length < pat.toList.count '-' := by
  rw [new_def] at h
  have hInv := run_inv (ofList_inv pat.toList) h
  have hframe := run_frame h
  have hrl : s'.result_len = pat.toList.count '-' := by
    rw [hframe.2, ofList_result_len]
  have := hInv.2.2.1 (by omega)
  omega

/-- Witness for **C9** at pattern `"a-b"` and input `"ab"`. -/
theorem c9_witness :
    ({ pattern := "a-b".toList, pos := 3, current_state := .Await,
       prev_i := 2, condex_len := 3, result_len := 1, result := [],
       results := [[(1, 1)]], or_conditions := [] } : Condex).result.length <
      "a-b".toList.count '-' :=
  c9_inprogress_lt_marker_count "a-b" [('a', 0), ('b', 1)]
    { pattern := "a-b".toList, pos := 3, current_state := .Await,
      prev_i := 2, condex_len := 3, result_len := 1, result := [],
      results := [[(1, 1)]], or_conditions := [] } (by decide) rfl

/-- **C10**: `_new` sets the declared capture-marker count to the number of
`-` characters anywhere in the pattern — those inside `[...]` classes
included — while during matching a `-` inside a class is collected as an
ordinary class member and does not flip the recognizer to `Record`:
resolving `"[a-]"` yields the class `['a', '-']` with the state still
`Await`, although its `result_len` is 1. -/
theorem c10_marker_count_counts_class_dashes :
    (∀ pat : String, (Condex._new pat).result_len = pat.toList.count '-')
    ∧ (Condex._new "[a-]").result_len = 1
    ∧ Condex.resolve (Condex._new "[a-]") =
        some (']', { Condex._new "[a-]" with pos := 3, or_conditions := ['a', '-'] })
    ∧ ({ Condex._new "[a-]" with pos := 3, or_conditions := ['a', '-'] } : Condex).current_state =
        CondexState.Await := by
  refine ⟨fun pat => ?_, rfl, rfl, rfl⟩
  rw [new_def]
  exact ofList_result_len _

end ClaimTheorems
section ResolutionLemmas

theorem resolveSpan_valid {src : List Char} {sp : Span}
    (h1 : sp.1 ≤ sp.2) (h2 : sp.2 ≤ src.length) :
    resolveSpan src sp = some (trimList ((src.drop sp.1).take (sp.2 - sp.1))) := by
  unfold resolveSpan sliceGet
  rw [if_pos ⟨h1, h2⟩]
  rfl

theorem resolveSpan_invalid {src : List Char} {sp : Span}
    (h : ¬(sp.1 ≤ sp.2 ∧ sp.2 ≤ src.length)) :
    resolveSpan src sp = none := by
  unfold resolveSpan sliceGet
  rw [if_neg h]
  rfl

theorem mapMO_eq_map {α β : Type} {f : α → Option β} {g : α → β} :
    ∀ {l : List α}, (∀ a ∈ l, f a = some (g a)) → mapMO f l = some (l.map g) := by
  intro l
  induction l with
  | nil => intro _; rfl
  | cons a rest ih =>
    intro hall
    simp only [mapMO]
    rw [hall a (by simp), ih (fun x hx => hall x (by simp [hx]))]
    rfl

theorem mapMO_none_of_exists {α β : Type} {f : α → Option β} :
    ∀ {l : List α}, (∃ a ∈ l, f a = none) → mapMO f l = none := by
  intro l
  induction l with
  | nil => rintro ⟨a, ha, -⟩; cases ha
  | cons b rest ih =>
    rintro ⟨a, ha, hfa⟩
    simp only [mapMO]
    rcases List.mem_cons.mp ha with rfl | hmem
    · rw [hfa]
    · rw [ih ⟨a, hmem, hfa⟩]
      cases f b <;> rfl

end ResolutionLemmas

/-- **C7**: span resolution in `finalize_with_source` maps a valid span
`[start, end)` to the trimmed slice of the supplied source at that range,
while any span that is not a valid range of the source is fatal — the
`unwrap` panic, modeled as `none` — for the whole call, rather than
producing an empty or garbled substring. -/
theorem c7_span_resolution :
    (∀ (src : List Char) (sp : Span), sp.1 ≤ sp.2 → sp.2 ≤ src.length →
        resolveSpan src sp =
          some (trimList ((src.drop sp.1).take (sp.2 - sp.1))))
    ∧ (∀ (src : List Char) (con : Condex),
        (∀ g ∈ con.results, ∀ sp ∈ g, sp.1 ≤ sp.2 ∧ sp.2 ≤ src.length) →
        finalizeWithSource src con =
          some (con.results.map (fun g =>
            g.map (fun sp => trimList ((src.drop sp.1).take (sp.2 - sp.1))))))
    ∧ (∀ (src : List Char) (con : Condex) (g : List Span) (sp : Span),
        g ∈ con.results → sp ∈ g → ¬(sp.1 ≤ sp.2 ∧ sp.2 ≤ src.length) →
        finalizeWithSource src con = none) := by
  refine ⟨fun src sp h1 h2 => resolveSpan_valid h1 h2, ?_, ?_⟩
  · intro src con hall
    unfold finalizeWithSource
    apply mapMO_eq_map
    intro g hg
    apply mapMO_eq_map
    intro sp hsp
    exact resolveSpan_valid (hall g hg sp hsp).1 (hall g hg sp hsp).2
  · intro src con g sp hg hsp hbad
    unfold finalizeWithSource
    exact mapMO_none_of_exists
      ⟨g, hg, mapMO_none_of_exists ⟨sp, hsp, resolveSpan_invalid hbad⟩⟩

/-- Witness for **C7**: the valid span `(0, 3)` over `" ab"` resolves to the
trimmed slice `"ab"`; an automaton carrying the invalid span `(5, 3)` makes
the whole resolution fail. -/
theorem c7_witness :
    resolveSpan " ab".toList (0, 3) = some "ab".toList
    ∧ finalizeWithSource "ab".toList
        { pattern := [], pos := 0, current_state := .Await, prev_i := 0,
          condex_len := 0, result_len := 1, result := [],
          results := [[(5, 3)]], or_conditions := [] } = none :=
  ⟨c7_span_resolution.1 " ab".toList (0, 3) (by decide) (by decide),
   c7_span_resolution.2.2 "ab".toList
     { pattern := [], pos := 0, current_state := .Await, prev_i := 0,
       condex_len := 0, result_len := 1, result := [],
       results := [[(5, 3)]], or_conditions := [] }
     [(5, 3)] (5, 3) (by simp) (by simp) (by decide)⟩

/-- **C6** counterexample: inserting the whitespace run `"\t"` at position 0
of the class-free pattern `"a-b"` changes the match results on the fixed
input `"ab"`: the original pattern completes one capture group, the
tab-carrying pattern none — a tab in the pattern is not skipped (only `' '`
is) and acts as a literal target. -/
theorem c6_tab_insertion_changes_results :
    Char.isWhitespace '\t' = true
    ∧ "\ta-b".toList =
        "a-b".toList.take 0 ++ List.replicate 1 '\t' ++ "a-b".toList.drop 0
    ∧ (Condex.run (Condex._new "a-b") [('a', 0), ('b', 1)]).map Condex.results
        = some [[(1, 1)]]
    ∧ (Condex.run (Condex._new "\ta-b") [('a', 0), ('b', 1)]).map Condex.results
        = some [] :=
  ⟨by decide, rfl, rfl, rfl⟩
section StripLemmas

/-- The pattern with its spaces removed: the sequence of characters that can
actually become comparison targets of a class-free pattern. -/
def stripped (p : List Char) : List Char := p.filter (fun c => c ≠ ' ')

/-- Number of non-space characters among the first `a` positions of the
cyclic pattern stream. -/
def stripPos (p : List Char) : Nat → Nat
  | 0 => 0
  | a + 1 => stripPos p a + (if (cyc p a).getD ' ' = ' ' then 0 else 1)

theorem stripPos_mono {p : List Char} {a b : Nat} (h : a ≤ b) :
    stripPos p a ≤ stripPos p b := by
  induction b with
  | zero =>
    have ha : a = 0 := Nat.le_zero.mp h
    rw [ha]
  | succ b ih =>
    rcases Nat.eq_or_lt_of_le h with rfl | hlt
    · exact le_refl _
    · calc stripPos p a ≤ stripPos p b := ih (by omega)
        _ ≤ stripPos p (b + 1) := by rw [stripPos]; omega

theorem cyc_lt {p : List Char} {r : Nat} (h : r < p.length) :
    cyc p r = p.get? r := by
  unfold cyc
  rw [Nat.mod_eq_of_lt h]

theorem cyc_add_len {p : List Char} (a : Nat) :
    cyc p (a + p.length) = cyc p a := by
  unfold cyc
  rw [Nat.add_mod_right]

theorem cyc_congr {p : List Char} {a b : Nat}
    (h : a % p.length = b % p.length) : cyc p a = cyc p b := by
  unfold cyc
  rw [h]

theorem cyc_some_pos {p : List Char} {a : Nat} {c : Char}
    (h : cyc p a = some c) : 0 < p.length := by
  cases p with
  | nil => simp [cyc] at h
  | cons x l => simp

theorem cyc_some {p : List Char} (hlen : 0 < p.length) (a : Nat) :
    ∃ c, cyc p a = some c := by
  unfold cyc
  have : a % p.length < p.length := Nat.mod_lt _ hlen
  rcases List.get?_eq_get this with h
  exact ⟨_, h⟩

theorem stripPos_succ_nonspace {p : List Char} {a : Nat} {c : Char}
    (hc : cyc p a = some c) (hns : c ≠ ' ') :
    stripPos p (a + 1) = stripPos p a + 1 := by
  rw [stripPos, hc]
  simp [hns]

theorem stripPos_succ_space {p : List Char} {a : Nat}
    (hc : cyc p a = some ' ') :
    stripPos p (a + 1) = stripPos p a := by
  rw [stripPos, hc]
  simp

theorem stripPos_take {p : List Char} :
    ∀ {r : Nat}, r ≤ p.length →
      stripPos p r = ((p.take r).filter (fun c => c ≠ ' ')).length := by
  intro r
  induction r with
  | zero => intro _; simp [stripPos]
  | succ r ih =>
    intro hle
    have hr : r < p.length := by omega
    rw [stripPos, List.take_succ, List.filter_append, List.length_append,
      ih (by omega)]
    have hrg : p[r]? = some p[r] := List.getElem?_eq_getElem hr
    have hcg : cyc p r = some p[r] := by
      rw [cyc_lt hr, List.get?_eq_getElem?, hrg]
    rw [hcg, hrg]
    by_cases hsp : p[r] = ' '
    · simp [hsp]
    · simp [hsp]

theorem stripPos_len {p : List Char} :
    stripPos p p.length = (stripped p).length := by
  rw [stripPos_take (le_refl _), List.take_length]
  rfl

theorem stripPos_add_len (p : List Char) (a : Nat) :
    stripPos p (a + p.length) = stripPos p a + (stripped p).length := by
  induction a with
  | zero =>
    rw [Nat.zero_add, stripPos_len]
    simp [stripPos]
  | succ a ih =>
    have : a + 1 + p.length = (a + p.length) + 1 := by omega
    rw [this, stripPos, ih, cyc_add_len, stripPos]
    omega

theorem cyc_stripped {p : List Char} : ∀ {a : Nat} {c : Char},
    cyc p a = some c → c ≠ ' ' →
    cyc (stripped p) (stripPos p a) = some c := by
  intro a
  induction a using Nat.strong_induction_on with
  | _ a ih =>
    intro c hc hns
    have hlen : 0 < p.length := cyc_some_pos hc
    by_cases ha : a < p.length
    · -- within the first cycle
      have hget : p.get? a = some c := by rw [← cyc_lt ha]; exact hc
      obtain ⟨hlt, hgeq⟩ := List.get?_eq_some.mp hget
      have hdrop : p.drop a = c :: p.drop (a + 1) := by
        rw [List.drop_eq_get_cons hlt, hgeq]
      have hx : stripPos p a = ((p.take a).filter (fun c => c ≠ ' ')).length :=
        stripPos_take (by omega)
      have hsplit : stripped p =
          (p.take a).filter (fun c => c ≠ ' ') ++
            c :: (p.drop (a + 1)).filter (fun c => c ≠ ' ') := by
        unfold stripped
        conv_lhs => rw [← List.take_append_drop a p]
        rw [List.filter_append, hdrop]
        simp [hns]
      have hxlt : stripPos p a < (stripped p).length := by
        rw [hx, hsplit, List.length_append, List.length_cons]
        omega
      unfold cyc
      rw [Nat.mod_eq_of_lt hxlt, hsplit, hx,
        List.get?_append_right (le_refl _)]
      simp
    · have ha' : a - p.length < a := by omega
      have hb : cyc p (a - p.length) = some c := by
        rw [← cyc_add_len (a - p.length)]
        have : a - p.length + p.length = a := by omega
        rw [this]
        exact hc
      have hrec := ih (a - p.length) ha' hb hns
      have h2 : stripPos p a = stripPos p (a - p.length) + (stripped p).length := by
        conv_lhs => rw [show a = (a - p.length) + p.length by omega]
        exact stripPos_add_len p (a - p.length)
      rw [h2, cyc_add_len]
      exact hrec

end StripLemmas
section WindowLemmas

theorem skippable_cases {c : Char} (h : isSkippable c = true) :
    c = ' ' ∨ c = '-' := by
  unfold isSkippable at h
  simpa using h

theorem not_skippable_ne {c : Char} (h : isSkippable c = false) :
    c ≠ ' ' ∧ c ≠ '-' := by
  unfold isSkippable at h
  constructor <;> intro heq <;> subst heq <;> simp at h

theorem least_eq_none_of {P : Nat → Bool} {bound : Nat}
    (h : ∀ j, j < bound → P j = false) : least P bound = none := by
  cases hle : least P bound with
  | none => rfl
  | some d =>
    obtain ⟨h1, h2, -⟩ := least_eq_some hle
    rw [h d h1] at h2
    cases h2

theorem mod_add_congr {n a b : Nat} (h : a % n = b % n) (e : Nat) :
    (a + e) % n = (b + e) % n := by
  rw [Nat.add_mod, h, ← Nat.add_mod]

theorem exists_shift {len : Nat} (hlen : 0 < len) (pos r : Nat) (hr : r < len) :
    ∃ d, d < len ∧ (pos + d) % len = r := by
  have hpm : pos % len < len := Nat.mod_lt _ hlen
  by_cases hc : pos % len ≤ r
  · refine ⟨r - pos % len, by omega, ?_⟩
    rw [Nat.add_mod, Nat.mod_eq_of_lt (show r - pos % len < len by omega)]
    have hsum : pos % len + (r - pos % len) = r := by omega
    rw [hsum, Nat.mod_eq_of_lt hr]
  · refine ⟨r + len - pos % len, by omega, ?_⟩
    rw [Nat.add_mod, Nat.mod_eq_of_lt (show r + len - pos % len < len by omega)]
    have hsum : pos % len + (r + len - pos % len) = r + len := by omega
    rw [hsum, Nat.add_mod_right, Nat.mod_eq_of_lt hr]

theorem window_spaces {p : List Char} {pos : Nat} : ∀ {d : Nat},
    (∀ j, j < d → cyc p (pos + j) = some ' ') →
    stripPos p (pos + d) = stripPos p pos := by
  intro d
  induction d with
  | zero => intro _; rw [Nat.add_zero]
  | succ d ih =>
    intro hsp
    have hstep : pos + (d + 1) = (pos + d) + 1 := by omega
    rw [hstep, stripPos_succ_space (hsp d (by omega)),
      ih (fun j hj => hsp j (by omega))]

theorem window_dashes {p : List Char} {pos : Nat} : ∀ {d : Nat},
    (∀ j, j < d → ∃ cj, cyc p (pos + j) = some cj ∧ isSkippable cj = true) →
    ∀ x, x < stripPos p (pos + d) - stripPos p pos →
      cyc (stripped p) (stripPos p pos + x) = some '-' := by
  intro d
  induction d with
  | zero =>
    intro _ x hx
    rw [Nat.add_zero] at hx
    omega
  | succ d ih =>
    intro hsk x hx
    obtain ⟨cd, hcd, hskd⟩ := hsk d (by omega)
    have hprev : ∀ j, j < d →
        ∃ cj, cyc p (pos + j) = some cj ∧ isSkippable cj = true :=
      fun j hj => hsk j (by omega)
    have hstep : pos + (d + 1) = (pos + d) + 1 := by omega
    rcases skippable_cases hskd with hspace | hdash
    · rw [hstep, stripPos_succ_space (hspace ▸ hcd)] at hx
      exact ih hprev x hx
    · have hne : cd ≠ ' ' := by rw [hdash]; decide
      rw [hstep, stripPos_succ_nonspace hcd hne] at hx
      have hmono : stripPos p pos ≤ stripPos p (pos + d) :=
        stripPos_mono (by omega)
      by_cases hxd : x < stripPos p (pos + d) - stripPos p pos
      · exact ih hprev x hxd
      · have hxeq : stripPos p pos + x = stripPos p (pos + d) := by omega
        rw [hxeq]
        rw [hdash] at hcd
        exact cyc_stripped hcd (by decide)

theorem anyDashIn_iff {p : List Char} {pos d : Nat}
    (hsk : ∀ j, j < d → ∃ cj, cyc p (pos + j) = some cj ∧ isSkippable cj = true) :
    (anyDashIn p pos d = true ↔ 0 < stripPos p (pos + d) - stripPos p pos) := by
  constructor
  · intro h
    unfold anyDashIn at h
    rw [List.any_eq_true] at h
    obtain ⟨j, hjmem, hj⟩ := h
    rw [List.mem_range] at hjmem
    rw [decide_eq_true_eq] at hj
    have h1 : stripPos p (pos + j + 1) = stripPos p (pos + j) + 1 :=
      stripPos_succ_nonspace hj (by decide)
    have h2 : stripPos p pos ≤ stripPos p (pos + j) := stripPos_mono (by omega)
    have h3 : stripPos p (pos + j + 1) ≤ stripPos p (pos + d) :=
      stripPos_mono (by omega)
    omega
  · intro h
    by_contra hno
    have hnod : ∀ j, j < d → cyc p (pos + j) ≠ some '-' := by
      intro j hj hdash
      exact hno (by
        unfold anyDashIn
        rw [List.any_eq_true]
        exact ⟨j, List.mem_range.mpr hj, decide_eq_true hdash⟩)
    have hallsp : ∀ j, j < d → cyc p (pos + j) = some ' ' := by
      intro j hj
      obtain ⟨cj, hcj, hskj⟩ := hsk j hj
      rcases skippable_cases hskj with h' | h'
      · rw [h'] at hcj; exact hcj
      · rw [h'] at hcj; exact absurd hcj (hnod j hj)
    have := window_spaces hallsp
    omega

theorem dash_run_lt {w : List Char} {u e : Nat} {ch : Char}
    (hdash : ∀ x, x < e → cyc w (u + x) = some '-')
    (hch : cyc w (u + e) = some ch) (hne : ch ≠ '-') :
    e < w.length := by
  by_contra hge
  push_neg at hge
  have hn : 0 < w.length := cyc_some_pos hch
  have hlt : e - w.length < e := by omega
  have hcong : cyc w (u + e) = cyc w (u + (e - w.length)) := by
    conv_lhs => rw [show u + e = (u + (e - w.length)) + w.length by omega]
    exact cyc_add_len _
  rw [hcong, hdash (e - w.length) hlt] at hch
  injection hch with hch
  exact hne hch.symm

theorem resolve_none {s : Condex}
    (h : least (stopperAt s.pattern s.pos) s.pattern.length = none) :
    s.resolve = none := by
  unfold Condex.resolve
  split
  · rfl
  · rename_i d heq
    rw [h] at heq
    cases heq

theorem resolve_literal {s : Condex} {d : Nat} {ch : Char}
    (hls : least (stopperAt s.pattern s.pos) s.pattern.length = some d)
    (hcyc : cyc s.pattern (s.pos + d) = some ch)
    (hch : ch ≠ '[') :
    s.resolve = some (ch, { s with pos := s.pos + d, current_state := stepState s.current_state (anyDashIn s.pattern s.pos d) }) := by
  unfold Condex.resolve
  split
  · rename_i heq
    rw [hls] at heq
    cases heq
  rename_i d' heq
  rw [hls] at heq
  injection heq with heq
  subst heq
  split
  · rename_i heq2
    rw [hcyc] at heq2
    cases heq2
  rename_i ch' heq2
  rw [hcyc] at heq2
  injection heq2 with heq2
  subst heq2
  rw [if_neg hch]

end WindowLemmas
section ResolveCorrespondence

theorem resolve_corr {p : List Char} (hnb : '[' ∉ p) {s t : Condex}
    (hsp : s.pattern = p) (htp : t.pattern = stripped p)
    (hst : s.current_state = t.current_state)
    (halign : t.pos % (stripped p).length = stripPos p s.pos % (stripped p).length) :
    (s.resolve = none ∧ t.resolve = none) ∨
    ∃ ch s₁ t₁, s.resolve = some (ch, s₁) ∧ t.resolve = some (ch, t₁) ∧
      s₁.current_state = t₁.current_state ∧
      s₁.or_conditions = s.or_conditions ∧
      t₁.or_conditions = t.or_conditions ∧
      t₁.pos % (stripped p).length = stripPos p s₁.pos % (stripped p).length ∧
      (t₁.pos + 1) % (stripped p).length =
        stripPos p (s₁.pos + 1) % (stripped p).length := by
  cases hls : least (stopperAt s.pattern s.pos) s.pattern.length with
  | none =>
    left
    refine ⟨resolve_none hls, resolve_none ?_⟩
    rw [htp]
    apply least_eq_none_of
    intro e he
    obtain ⟨ce, hce⟩ := cyc_some (by omega : 0 < (stripped p).length) (t.pos + e)
    unfold stopperAt
    rw [hce]
    have hmem : ce ∈ p := (List.mem_filter.mp (cyc_mem hce)).1
    have hskipall : isSkippable ce = true := by
      obtain ⟨r, hget⟩ := List.mem_iff_get?.mp hmem
      have hrlt : r < p.length := (List.get?_eq_some.mp hget).1
      have hplen : 0 < p.length := by omega
      obtain ⟨dd, hdd, hmod⟩ := exists_shift hplen s.pos r hrlt
      have hstop := least_eq_none hls dd (by rw [hsp]; exact hdd)
      unfold stopperAt at hstop
      rw [hsp] at hstop
      have hcycd : cyc p (s.pos + dd) = some ce := by
        unfold cyc
        rw [hmod]
        exact hget
      rw [hcycd] at hstop
      simpa using hstop
    simp [hskipall]
  | some d =>
    obtain ⟨hdlt, hdP, hdmin⟩ := least_eq_some hls
    rw [hsp] at hdlt hdP hdmin
    cases hcyc : cyc p (s.pos + d) with
    | none =>
      exfalso
      unfold stopperAt at hdP
      rw [hcyc] at hdP
      cases hdP
    | some ch =>
      have hchskip : isSkippable ch = false := by
        unfold stopperAt at hdP
        rw [hcyc] at hdP
        simpa using hdP
      obtain ⟨hchsp, hchdash⟩ := not_skippable_ne hchskip
      have hplen : 0 < p.length := cyc_some_pos hcyc
      have hsk : ∀ j, j < d →
          ∃ cj, cyc p (s.pos + j) = some cj ∧ isSkippable cj = true := by
        intro j hj
        obtain ⟨cj, hcj⟩ := cyc_some hplen (s.pos + j)
        refine ⟨cj, hcj, ?_⟩
        have hstop := hdmin j hj
        unfold stopperAt at hstop
        rw [hcj] at hstop
        simpa using hstop
      have hmono : stripPos p s.pos ≤ stripPos p (s.pos + d) :=
        stripPos_mono (by omega)
      have hdashes := window_dashes hsk
      have hchw : cyc (stripped p) (stripPos p (s.pos + d)) = some ch :=
        cyc_stripped hcyc hchsp
      have hchw2 : cyc (stripped p)
          (stripPos p s.pos + (stripPos p (s.pos + d) - stripPos p s.pos)) =
          some ch := by
        rw [show stripPos p s.pos + (stripPos p (s.pos + d) - stripPos p s.pos)
            = stripPos p (s.pos + d) by omega]
        exact hchw
      have heltn : stripPos p (s.pos + d) - stripPos p s.pos <
          (stripped p).length := dash_run_lt hdashes hchw2 hchdash
      have hn0 : 0 < (stripped p).length := cyc_some_pos hchw
      have halignE : ∀ x, cyc (stripped p) (t.pos + x) =
          cyc (stripped p) (stripPos p s.pos + x) :=
        fun x => cyc_congr (mod_add_congr halign x)
      have hwleast : least (stopperAt (stripped p) t.pos) (stripped p).length =
          some (stripPos p (s.pos + d) - stripPos p s.pos) := by
        apply least_of_spec heltn
        · unfold stopperAt
          rw [halignE, hchw2]
          simpa using hchskip
        · intro j hj
          unfold stopperAt
          rw [halignE, hdashes j hj]
          decide
      have hadp : anyDashIn p s.pos d =
          anyDashIn (stripped p) t.pos
            (stripPos p (s.pos + d) - stripPos p s.pos) := by
        by_cases h0 : 0 < stripPos p (s.pos + d) - stripPos p s.pos
        · rw [(anyDashIn_iff hsk).mpr h0]
          have hR : anyDashIn (stripped p) t.pos
              (stripPos p (s.pos + d) - stripPos p s.pos) = true := by
            unfold anyDashIn
            rw [List.any_eq_true]
            refine ⟨0, List.mem_range.mpr h0, decide_eq_true ?_⟩
            rw [halignE]
            exact hdashes 0 h0
          rw [hR]
        · have h00 : stripPos p (s.pos + d) - stripPos p s.pos = 0 := by omega
          rw [h00]
          have hL : anyDashIn p s.pos d = false := by
            cases hq : anyDashIn p s.pos d with
            | false => rfl
            | true => exact absurd ((anyDashIn_iff hsk).mp hq) h0
          rw [hL]
          rfl
      have hchnb : ch ≠ '[' := fun hq => hnb (hq ▸ cyc_mem hcyc)
      have hs1 := resolve_literal (s := s)
        hls (by rw [hsp]; exact hcyc) hchnb
      have ht1 := resolve_literal (s := t)
        (by rw [htp]; exact hwleast)
        (by rw [htp, halignE]; exact hchw2) hchnb
      right
      refine ⟨ch, _, _, hs1, ht1, ?_, rfl, rfl, ?_, ?_⟩
      · show stepState s.current_state (anyDashIn s.pattern s.pos d) =
          stepState t.current_state (anyDashIn t.pattern t.pos
            (stripPos p (s.pos + d) - stripPos p s.pos))
        rw [hsp, htp, hst, hadp]
      · show (t.pos + (stripPos p (s.pos + d) - stripPos p s.pos)) %
            (stripped p).length = stripPos p (s.pos + d) % (stripped p).length
        rw [mod_add_congr halign]
        rw [show stripPos p s.pos + (stripPos p (s.pos + d) - stripPos p s.pos)
            = stripPos p (s.pos + d) by omega]
      · show (t.pos + (stripPos p (s.pos + d) - stripPos p s.pos) + 1) %
            (stripped p).length = stripPos p (s.pos + d + 1) % (stripped p).length
        rw [stripPos_succ_nonspace hcyc hchsp]
        rw [show t.pos + (stripPos p (s.pos + d) - stripPos p s.pos) + 1
            = t.pos + ((stripPos p (s.pos + d) - stripPos p s.pos) + 1) by omega]
        rw [mod_add_congr halign]
        rw [show stripPos p s.pos +
            ((stripPos p (s.pos + d) - stripPos p s.pos) + 1)
            = stripPos p (s.pos + d) + 1 by omega]

end ResolveCorrespondence
section StripSimulation

theorem test_of_resolve {s : Condex} {c : Char} {i : Nat} {ch : Char}
    {s₁ : Condex} (hc : ¬c = ' ') (h : s.resolve = some (ch, s₁)) :
    s.test c i =
      match s₁.current_state with
      | .Await => if condMatch s₁ c ch then some (succeed s₁ i) else some s₁
      | .Record =>
        if condMatch s₁ c ch then
          if s₁.result_len ≤ (s₁.result ++ [(s₁.prev_i, i)]).length then
            some (succeed { s₁ with result := [], results := s₁.results ++ [s₁.result ++ [(s₁.prev_i, i)]] } i)
          else some (succeed { s₁ with result := s₁.result ++ [(s₁.prev_i, i)] } i)
        else some s₁ := by
  unfold Condex.test
  rw [if_neg hc, h]

/-- The bisimulation between a class-free automaton on pattern `p` and the
automaton on the space-stripped pattern: all observable fields agree, no
class is active, and the two cursors point at the same despaced position. -/
def StripRel (p : List Char) (s t : Condex) : Prop :=
  '[' ∉ p ∧ s.pattern = p ∧ t.pattern = stripped p ∧
  s.current_state = t.current_state ∧ s.prev_i = t.prev_i ∧
  s.result = t.result ∧ s.results = t.results ∧ s.result_len = t.result_len ∧
  s.or_conditions = [] ∧ t.or_conditions = [] ∧
  t.pos % (stripped p).length = stripPos p s.pos % (stripped p).length

theorem step_corr {p : List Char} {s t : Condex} (hrel : StripRel p s t)
    (c : Char) (i : Nat) :
    (s.test c i = none ∧ t.test c i = none) ∨
    ∃ s' t', s.test c i = some s' ∧ t.test c i = some t' ∧ StripRel p s' t' := by
  obtain ⟨hnb, hsp, htp, hst, hprev, hres, hress, hrl, hor, htor, halign⟩ := hrel
  by_cases hspace : c = ' '
  · right
    exact ⟨s, t, by simp [Condex.test, hspace], by simp [Condex.test, hspace],
      ⟨hnb, hsp, htp, hst, hprev, hres, hress, hrl, hor, htor, halign⟩⟩
  rcases resolve_corr hnb hsp htp hst halign with ⟨hn1, hn2⟩ |
    ⟨ch, s₁, t₁, h1, h2, hcs, hor1, hor2, hal1, hal2⟩
  · left
    constructor
    · simp [Condex.test, hspace, hn1]
    · simp [Condex.test, hspace, hn2]
  right
  obtain ⟨hsp1, hprev1, hres1, hress1, hrl1, -⟩ := resolve_frame h1
  obtain ⟨htp1, hprev2, hres2, hress2, hrl2, -⟩ := resolve_frame h2
  have hor1' : s₁.or_conditions = [] := by rw [hor1, hor]
  have hor2' : t₁.or_conditions = [] := by rw [hor2, htor]
  have hknit : s₁.result = t₁.result := by rw [hres1, hres, ← hres2]
  have hknit2 : s₁.results = t₁.results := by rw [hress1, hress, ← hress2]
  have hknit3 : s₁.result_len = t₁.result_len := by rw [hrl1, hrl, ← hrl2]
  have hknit4 : s₁.prev_i = t₁.prev_i := by rw [hprev1, hprev, ← hprev2]
  have hcm : condMatch s₁ c ch = condMatch t₁ c ch := by
    unfold condMatch
    rw [hor1', hor2']
  have hpat1 : s₁.pattern = p := hsp1.trans hsp
  have hpat2 : t₁.pattern = stripped p := htp1.trans htp
  cases hcs1 : s₁.current_state with
  | Await =>
    have hcs2 : t₁.current_state = CondexState.Await := by rw [← hcs, hcs1]
    cases hm : condMatch s₁ c ch with
    | true =>
      have hm2 : condMatch t₁ c ch = true := by rw [← hcm, hm]
      refine ⟨succeed s₁ i, succeed t₁ i, ?_, ?_, ?_⟩
      · rw [test_of_resolve hspace h1]
        simp only [hcs1]
        rw [if_pos hm]
      · rw [test_of_resolve hspace h2]
        simp only [hcs2]
        rw [if_pos hm2]
      · exact ⟨hnb, by simp [succeed, hpat1], by simp [succeed, hpat2],
          rfl, rfl, by simp [succeed, hknit], by simp [succeed, hknit2],
          by simp [succeed, hknit3], rfl, rfl, by simp [succeed]; exact hal2⟩
    | false =>
      have hm2 : condMatch t₁ c ch = false := by rw [← hcm, hm]
      refine ⟨s₁, t₁, ?_, ?_, ?_⟩
      · rw [test_of_resolve hspace h1]
        simp only [hcs1]
        rw [if_neg (by simp [hm])]
      · rw [test_of_resolve hspace h2]
        simp only [hcs2]
        rw [if_neg (by simp [hm2])]
      · exact ⟨hnb, hpat1, hpat2, hcs, hknit4, hknit, hknit2, hknit3,
          hor1', hor2', hal1⟩
  | Record =>
    have hcs2 : t₁.current_state = CondexState.Record := by rw [← hcs, hcs1]
    cases hm : condMatch s₁ c ch with
    | false =>
      have hm2 : condMatch t₁ c ch = false := by rw [← hcm, hm]
      refine ⟨s₁, t₁, ?_, ?_, ?_⟩
      · rw [test_of_resolve hspace h1]
        simp only [hcs1]
        rw [if_neg (by simp [hm])]
      · rw [test_of_resolve hspace h2]
        simp only [hcs2]
        rw [if_neg (by simp [hm2])]
      · exact ⟨hnb, hpat1, hpat2, hcs, hknit4, hknit, hknit2, hknit3,
          hor1', hor2', hal1⟩
    | true =>
      have hm2 : condMatch t₁ c ch = true := by rw [← hcm, hm]
      by_cases hcp : s₁.result_len ≤ (s₁.result ++ [(s₁.prev_i, i)]).length
      · have hcp2 : t₁.result_len ≤ (t₁.result ++ [(t₁.prev_i, i)]).length := by
          rw [← hknit, ← hknit3, ← hknit4]
          exact hcp
        refine ⟨succeed { s₁ with result := [], results := s₁.results ++ [s₁.result ++ [(s₁.prev_i, i)]] } i,
          succeed { t₁ with result := [], results := t₁.results ++ [t₁.result ++ [(t₁.prev_i, i)]] } i,
          ?_, ?_, ?_⟩
        · rw [test_of_resolve hspace h1]
          simp only [hcs1]
          rw [if_pos hm, if_pos hcp]
        · rw [test_of_resolve hspace h2]
          simp only [hcs2]
          rw [if_pos hm2, if_pos hcp2]
        · exact ⟨hnb, by simp [succeed, hpat1], by simp [succeed, hpat2],
            rfl, rfl, by simp [succeed],
            by simp [succeed]; rw [hknit2, hknit, hknit4],
            by simp [succeed, hknit3], rfl, rfl, by simp [succeed]; exact hal2⟩
      · have hcp2 : ¬t₁.result_len ≤ (t₁.result ++ [(t₁.prev_i, i)]).length := by
          rw [← hknit, ← hknit3, ← hknit4]
          exact hcp
        refine ⟨succeed { s₁ with result := s₁.result ++ [(s₁.prev_i, i)] } i,
          succeed { t₁ with result := t₁.result ++ [(t₁.prev_i, i)] } i,
          ?_, ?_, ?_⟩
        · rw [test_of_resolve hspace h1]
          simp only [hcs1]
          rw [if_pos hm, if_neg hcp]
        · rw [test_of_resolve hspace h2]
          simp only [hcs2]
          rw [if_pos hm2, if_neg hcp2]
        · exact ⟨hnb, by simp [succeed, hpat1], by simp [succeed, hpat2],
            rfl, rfl, by simp [succeed]; rw [hknit, hknit4],
            by simp [succeed, hknit2], by simp [succeed, hknit3],
            rfl, rfl, by simp [succeed]; exact hal2⟩

theorem run_corr {p : List Char} :
    ∀ (inputs : List (Char × Nat)) {s t : Condex}, StripRel p s t →
    (s.run inputs = none ∧ t.run inputs = none) ∨
    ∃ s' t', s.run inputs = some s' ∧ t.run inputs = some t' ∧
      StripRel p s' t' := by
  intro inputs
  induction inputs with
  | nil =>
    intro s t hrel
    right
    exact ⟨s, t, rfl, rfl, hrel⟩
  | cons ci rest ih =>
    intro s t hrel
    obtain ⟨c, i⟩ := ci
    rcases step_corr hrel c i with ⟨h1, h2⟩ | ⟨s₁, t₁, h1, h2, hrel1⟩
    · left
      constructor
      · simp only [Condex.run, h1]
      · simp only [Condex.run, h2]
    · rcases ih hrel1 with ⟨g1, g2⟩ | ⟨s', t', g1, g2, grel⟩
      · left
        constructor
        · simp only [Condex.run, h1]
          exact g1
        · simp only [Condex.run, h2]
          exact g2
      · right
        refine ⟨s', t', ?_, ?_, grel⟩
        · simp only [Condex.run, h1]
          exact g1
        · simp only [Condex.run, h2]
          exact g2

theorem run_results_eq {p : List Char} {s t : Condex} (hrel : StripRel p s t)
    (inputs : List (Char × Nat)) :
    (s.run inputs).map Condex.results = (t.run inputs).map Condex.results := by
  rcases run_corr inputs hrel with ⟨h1, h2⟩ | ⟨s', t', h1, h2, hrel'⟩
  · rw [h1, h2]
  · rw [h1, h2]
    obtain ⟨-, -, -, -, -, -, hress, -, -, -, -⟩ := hrel'
    simp [hress]

theorem count_dash_stripped (p : List Char) :
    (stripped p).count '-' = p.count '-' := by
  unfold stripped
  induction p with
  | nil => rfl
  | cons c rest ih =>
    rw [List.filter_cons]
    by_cases hc : c = ' '
    · subst hc
      simp [List.count_cons, ih]
    · simp [hc, List.count_cons, ih]

theorem strip_init {p : List Char} (hnb : '[' ∉ p) :
    StripRel p (Condex.ofList p) (Condex.ofList (stripped p)) := by
  refine ⟨hnb, rfl, rfl, rfl, rfl, rfl, rfl, ?_, rfl, rfl, rfl⟩
  rw [ofList_result_len, ofList_result_len, count_dash_stripped]

end StripSimulation
/-- **C6** amended: for every class-free pattern (no `[` anywhere), inserting
a run of *space* characters at any position leaves the match results on any
fixed input unchanged — both automatons produce the same completed-groups
list (and both diverge on the same inputs).  Whitespace other than `' '` is
not transparent in the pattern (see the counterexample), so the claim holds
for space runs only. -/
theorem c6_amended_space_insertion (p : List Char) (k m : Nat)
    (inputs : List (Char × Nat)) (hnb : '[' ∉ p) :
    (Condex.run (Condex.ofList (p.take k ++ List.replicate m ' ' ++ p.drop k))
        inputs).map Condex.results
    = (Condex.run (Condex.ofList p) inputs).map Condex.results := by
  have hnbq : '[' ∉ p.take k ++ List.replicate m ' ' ++ p.drop k := by
    intro hmem
    rcases List.mem_append.mp hmem with hmem | hmem
    · rcases List.mem_append.mp hmem with hmem | hmem
      · exact hnb (List.take_subset k p hmem)
      · exact absurd (List.eq_of_mem_replicate hmem) (by decide)
    · exact hnb (List.drop_subset k p hmem)
  have hstrip : stripped (p.take k ++ List.replicate m ' ' ++ p.drop k) =
      stripped p := by
    unfold stripped
    rw [List.filter_append, List.filter_append]
    have hrep : List.filter (fun c => decide (c ≠ ' ')) (List.replicate m ' ')
        = [] := by
      rw [List.filter_eq_nil]
      intro a ha
      rw [List.eq_of_mem_replicate ha]
      simp
    rw [hrep, List.append_nil, ← List.filter_append, List.take_append_drop]
  calc (Condex.run (Condex.ofList (p.take k ++ List.replicate m ' ' ++ p.drop k))
          inputs).map Condex.results
      = (Condex.run (Condex.ofList
          (stripped (p.take k ++ List.replicate m ' ' ++ p.drop k)))
          inputs).map Condex.results := run_results_eq (strip_init hnbq) inputs
    _ = (Condex.run (Condex.ofList (stripped p)) inputs).map Condex.results := by
          rw [hstrip]
    _ = (Condex.run (Condex.ofList p) inputs).map Condex.results :=
          (run_results_eq (strip_init hnb) inputs).symm

/-- Witness for the amended **C6** at pattern `"a-b"`, a run of two spaces
inserted at position 1, and input `"ab"`. -/
theorem c6_amended_witness :
    (Condex.run (Condex.ofList
        ("a-b".toList.take 1 ++ List.replicate 2 ' ' ++ "a-b".toList.drop 1))
        [('a', 0), ('b', 1)]).map Condex.results
    = (Condex.run (Condex.ofList "a-b".toList)
        [('a', 0), ('b', 1)]).map Condex.results :=
  c6_amended_space_insertion "a-b".toList 1 2 [('a', 0), ('b', 1)] (by decide)
